import Mathlib

/-!
Shallow embedding of the solid-archive container logic of `src/app.py`
(Ultra Compressor V13): parallel metadata scan, composite-key stable sort,
tar+xz solid container with content-addressed dedup links, magic-checked
listing, and selective extraction.

Modelling conventions:
* File contents are byte lists (`Bytes := List Nat`).
* The SHA-256 digest computed by `process_file_metadata` is modelled by the
  full content itself: the digest is injective on the inputs considered, and
  the program only ever compares digests for equality.
* The XZ+tar layer is modelled as a faithful codec: a container file is its
  leading `len(MAGIC_NUMBER)` bytes plus the decoded record stream of the
  remainder (`none` when the remainder is not a decodable XZ+tar stream,
  e.g. after an aborted build truncated it).
* The filesystem maps each name to a `Source`: `absent` (the
  `os.path.exists` guard in `process_file_metadata` fails, the entry is
  silently dropped by `if res:`), `readable content`, or `raising` (the
  path exists but opening/reading it raises; the exception re-raises at
  `list(executor.map(...))` and the outer `except` aborts the whole build
  before the output file is opened). The writer loop re-opens sources
  through their byte view `srcBytes`: any non-readable source raises in
  `ProgressFileObject` and aborts the build mid-stream.
* Python's `sorted` is the stable sort by the key
  `(header bytes, extension, size)`; it is modelled by insertion sort with
  the lexicographic order on that key, which is sorted and stable, hence
  extensionally equal to any stable sort.
-/

namespace UltraCompressor

abbrev Bytes := List Nat

/-- `MAGIC_NUMBER = b'MYCP_ULT'` from `src/app.py`. -/
def MAGIC_NUMBER : Bytes := [77, 89, 67, 80, 95, 85, 76, 84]

/-- `b'MYCP'`: `list_archive_contents` accepts any magic starting with this. -/
def MAGIC_FAMILY : Bytes := [77, 89, 67, 80]

/-- `magic.startswith(b'MYCP')` in `list_archive_contents`. -/
def magicOK (m : Bytes) : Bool := MAGIC_FAMILY.isPrefixOf m

/-- Output path `workspace/output_archives/{name}.mycmp` used by
`compress_ultimate`. -/
def outputPath (outName : String) : String :=
  "workspace/output_archives/" ++ outName ++ ".mycmp"

/-- The extension part of `os.path.splitext(fname)[1]`: the suffix from the
last dot on, provided some character before that dot is not itself a dot. -/
def extOf (s : String) : String :=
  let cs := s.data
  match cs.reverse.findIdx? (fun c => c = '.') with
  | none => ""
  | some i =>
    let beforeDot := cs.take (cs.length - 1 - i)
    if beforeDot.any (fun c => c ≠ '.') then
      String.mk (cs.reverse.take (i + 1)).reverse
    else ""

/-- Scan-time record built by `process_file_metadata`: name, size, extension,
content digest (modelled as the content) and the leading 16 bytes. -/
structure FileMeta where
  name : String
  size : Nat
  ext : String
  hash : Bytes
  header : Bytes
deriving DecidableEq

/-- What the filesystem holds at a name: the path does not exist
(`os.path.exists` is false), the path is readable with the given content,
or the path exists but opening/reading it raises (permission error, or the
file vanished between the `exists` check and `open`). -/
inductive Source where
  | absent
  | readable (content : Bytes)
  | raising
deriving DecidableEq

/-- The byte view of a source used when it is re-opened for streaming:
`ProgressFileObject.__init__` raises for anything that is not readable. -/
def srcBytes (fs : String → Source) : String → Option Bytes :=
  fun n =>
    match fs n with
    | Source.readable content => some content
    | _ => none

/-- `process_file_metadata`: returns `None` (modelled `.ok none`) when the
source path does not exist — the `os.path.exists` guard; raises (modelled
`.error`) when the path exists but opening or reading it fails — CPython
re-raises that worker exception at `list(executor.map(...))`; otherwise
produces the metadata record: size, extension, SHA-256 digest and the
leading 16 bytes used as a sort key. -/
def process_file_metadata (fs : String → Source) (fname : String) :
    Except Unit (Option FileMeta) :=
  match fs fname with
  | Source.absent => .ok none
  | Source.raising => .error ()
  | Source.readable content =>
    .ok (some { name := fname, size := content.length, ext := extOf fname,
                hash := content, header := content.take 16 })

/-- The scan phase of `compress_ultimate`: `executor.map` keeps argument
order; `list(...)` re-raises the first worker exception — the outer
`except` then aborts the whole build — and `None` results are silently
dropped by the `if res:` filter, with no warning recorded anywhere. -/
def scanPhase (fs : String → Source) : List String → Except Unit (List FileMeta)
  | [] => .ok []
  | n :: rest =>
    match process_file_metadata fs n with
    | .error u => .error u
    | .ok none => scanPhase fs rest
    | .ok (some m) => (scanPhase fs rest).map (fun ms => m :: ms)

/-- Three-way comparison of naturals, as Python compares two numbers. -/
def cmpNat (a b : Nat) : Ordering :=
  if a < b then .lt else if b < a then .gt else .eq

/-- Three-way lexicographic comparison of byte sequences, as Python compares
two `bytes` values: first differing byte decides, a strict prefix is
smaller. -/
def cmpNatList : List Nat → List Nat → Ordering
  | [], [] => .eq
  | [], _ :: _ => .lt
  | _ :: _, [] => .gt
  | a :: as, b :: bs => (cmpNat a b).then (cmpNatList as bs)

/-- The code points of a string; Python compares strings lexicographically
by code point. -/
def charNats (s : String) : List Nat := s.data.map Char.toNat

/-- Python's comparison of the composite sort key tuple
`(x['header'], x['ext'], x['size'])`: component-wise lexicographic. -/
def cmpKey (a b : FileMeta) : Ordering :=
  (cmpNatList a.header b.header).then
    ((cmpNatList (charNats a.ext) (charNats b.ext)).then (cmpNat a.size b.size))

/-- `a` may be placed no later than `b` by Python's stable `sorted`:
`a`'s key is not strictly greater than `b`'s. -/
def planLe (a b : FileMeta) : Prop := cmpKey a b ≠ Ordering.gt

instance : DecidableRel planLe :=
  fun a b => inferInstanceAs (Decidable (cmpKey a b ≠ Ordering.gt))

/-- `sorted_files = sorted(file_meta, key=...)`: the stable sort by
`sortKey`, modelled by insertion sort (stable and sorted, hence equal to
Python's stable sort). -/
def plannedOrder (metas : List FileMeta) : List FileMeta :=
  List.insertionSort planLe metas

/-- Record kind inside the tar stream: a real data member or a hard-link
member (`tarfile.LNKTYPE`). -/
inductive RecKind where
  | data
  | link
deriving DecidableEq

/-- One member of the decoded tar stream: `tarfile.TarInfo` fields the
program touches, plus the payload bytes that follow a data header. -/
structure TarRecord where
  name : String
  kind : RecKind
  linkname : String
  size : Nat
  uid : Nat
  gid : Nat
  uname : String
  gname : String
  mtime : Nat
  payload : Bytes
deriving DecidableEq

/-- A fresh `tarfile.TarInfo(name)`: regular file, size 0, empty linkname,
zeroed ids and time, empty owner names. -/
def mkTarInfo (name : String) : TarRecord :=
  { name := name, kind := .data, linkname := "", size := 0, uid := 0,
    gid := 0, uname := "", gname := "", mtime := 0, payload := [] }

/-- `reset_tar_info`: fixes owner ids to 0, owner names to "root" and the
modification time to 0. -/
def reset_tar_info (ti : TarRecord) : TarRecord :=
  { ti with uid := 0, gid := 0, uname := "root", gname := "root", mtime := 0 }

/-- The link record written in the dedup branch of `compress_ultimate`. -/
def linkRecord (name canon : String) : TarRecord :=
  reset_tar_info { mkTarInfo name with kind := .link, linkname := canon }

/-- The data record written in the fresh-hash branch of
`compress_ultimate`; `tar.addfile(ti, fileobj)` copies `ti.size` bytes. -/
def dataRecord (name : String) (size : Nat) (payload : Bytes) : TarRecord :=
  reset_tar_info { mkTarInfo name with size := size, payload := payload }

/-- The `seen_hashes` dict: digest → canonical member name. Keys are only
ever inserted when absent, so an association list with first-match lookup is
an exact model. -/
abbrev SeenTable := List (Bytes × String)

def lookupHash (h : Bytes) : SeenTable → Option String
  | [] => none
  | (k, v) :: rest => if k = h then some v else lookupHash h rest

/-- The writer loop of `compress_ultimate` over the planned order: a seen
digest yields a zero-payload link record to the canonical name; a fresh
digest registers the name as canonical and streams the source into a data
record. A source that can no longer be opened, or that has shrunk below its
scanned size, raises mid-stream and aborts the whole build (`.error`). -/
def writeLoop (fsWrite : String → Option Bytes) :
    SeenTable → List FileMeta → Except Unit (List TarRecord)
  | _, [] => .ok []
  | seen, item :: rest =>
    match lookupHash item.hash seen with
    | some canon =>
      match writeLoop fsWrite seen rest with
      | .ok rs => .ok (linkRecord item.name canon :: rs)
      | .error u => .error u
    | none =>
      match fsWrite item.name with
      | none => .error ()
      | some content =>
        if content.length < item.size then .error ()
        else
          match writeLoop fsWrite ((item.hash, item.name) :: seen) rest with
          | .ok rs => .ok (dataRecord item.name item.size (content.take item.size) :: rs)
          | .error u => .error u

/-- A container file as it sits on disk: its leading `len(MAGIC_NUMBER)`
bytes, and the XZ+tar decoding of the remainder (`none` when the remainder
does not decode, e.g. a truncated stream from an aborted build). -/
structure ArchiveFile where
  magic : Bytes
  body : Option (List TarRecord)
deriving DecidableEq

/-- `compress_ultimate`: scan (missing sources silently skipped, a raising
source aborts the whole build via the outer `except` before
`open(output_path, "wb")` runs, so no output file exists — second
component `none`), stable sort by the composite key, then the dedup writer
loop behind `MAGIC_NUMBER`. On success it returns the output path and the
file holds the record stream; on a mid-stream write failure it returns
`None` while the partially written file — valid magic, undecodable
truncated body — is left at the output path. `fsScan` and `fsWrite` are
the filesystem as seen at scan time and at write time (each source is
re-opened for streaming). -/
def compress_ultimate (fsScan fsWrite : String → Source)
    (names : List String) (outName : String) :
    Option String × Option ArchiveFile :=
  match scanPhase fsScan names with
  | .error _ => (none, none)
  | .ok metas =>
    match writeLoop (srcBytes fsWrite) [] (plannedOrder metas) with
    | .ok records => (some (outputPath outName), some ⟨MAGIC_NUMBER, some records⟩)
    | .error _ => (none, some ⟨MAGIC_NUMBER, none⟩)

/-- `list_archive_contents`: read the leading bytes, reject unless they
start with `b'MYCP'` without touching the body, else decode the body and
return the member names; a decoding failure is caught and reported. -/
def list_archive_contents (file : ArchiveFile) : Option (List String) × String :=
  if magicOK file.magic then
    match file.body with
    | some records => (some (records.map (fun r => r.name)), "Success")
    | none => (none, "CorruptStream")
  else (none, "Invalid File Format")

/-- The extraction output directory `workspace/extracted_output`, as a
name → bytes map; later writes shadow earlier ones. -/
abbrev DirState := List (String × Bytes)

def lookupDir (n : String) : DirState → Option Bytes
  | [] => none
  | (k, v) :: rest => if k = n then some v else lookupDir n rest

def insertDir (n : String) (v : Bytes) (d : DirState) : DirState := (n, v) :: d

/-- `clear_extracted_folder`: removes the whole extraction directory and
recreates it empty, whatever it held. -/
def clear_extracted_folder (_d : DirState) : DirState := []

/-- `tarfile._find_link_target` fallback of `makelink`: the last member
before the link whose name is the link target; its payload if it is a data
member. -/
def resolveLinkTarget (prev : List TarRecord) (target : String) : Option Bytes :=
  match prev.reverse.find? (fun r => r.name = target) with
  | some r => if r.kind = RecKind.data then some r.payload else none
  | none => none

/-- `tar.extractall(members=...)` over the record stream: members whose name
is requested are materialized in stream order. A data member writes its
payload; a hard-link member links to the already-materialized target if it
exists in the output directory (`os.path.exists` branch of `makelink`),
otherwise falls back to extracting the link target found among the earlier
archive members, and fails the whole extraction if it cannot be resolved. -/
def extractLoop (targets : List String) :
    List TarRecord → DirState → List TarRecord → Except DirState DirState
  | _, dir, [] => .ok dir
  | prev, dir, r :: rest =>
    if r.name ∈ targets then
      match r.kind with
      | .data => extractLoop targets (prev ++ [r]) (insertDir r.name r.payload dir) rest
      | .link =>
        match lookupDir r.linkname dir with
        | some bs => extractLoop targets (prev ++ [r]) (insertDir r.name bs dir) rest
        | none =>
          match resolveLinkTarget prev r.linkname with
          | some bs => extractLoop targets (prev ++ [r]) (insertDir r.name bs dir) rest
          | none => .error dir
    else extractLoop targets (prev ++ [r]) dir rest

/-- `extract_selected_files`: clears the extraction directory first, skips
the magic length without checking it, decodes the remainder, filters the
members by the requested names, fails with "No matching files found." when
none match, and otherwise materializes the selected members. Any decode or
link-resolution failure is caught and reported as an extraction error. -/
def extract_selected_files (prior : DirState) (file : ArchiveFile)
    (targets : List String) : (Bool × String) × DirState :=
  let d0 := clear_extracted_folder prior
  match file.body with
  | none => ((false, "Extraction Error"), d0)
  | some records =>
    let members := records.filter (fun r => r.name ∈ targets)
    if members.isEmpty then ((false, "No matching files found."), d0)
    else
      match extractLoop targets [] d0 records with
      | .ok dir => ((true, "Extracted " ++ toString members.length ++ " files."), dir)
      | .error dir => ((false, "Extraction Error"), dir)

/-- The byte view of a list of `(name, content)` entries: used as a
write-time filesystem for the writer loop. -/
def entriesFs (entries : List (String × Bytes)) : String → Option Bytes :=
  fun n => (entries.find? (fun p => p.1 = n)).map (fun p => p.2)

/-- The filesystem induced by a list of `(name, content)` entries: each
named entry is a readable file, everything else is absent. -/
def entriesSrc (entries : List (String × Bytes)) : String → Source :=
  fun n =>
    match entries.find? (fun p => p.1 = n) with
    | some p => Source.readable p.2
    | none => Source.absent

/-- Building a container from `(name, content)` entries: both snapshots of
the filesystem are the entries themselves. -/
def build (entries : List (String × Bytes)) :
    Option String × Option ArchiveFile :=
  compress_ultimate (entriesSrc entries) (entriesSrc entries)
    (entries.map Prod.fst) "archive"

/-- A scanned item whose source is readable at write time with the scanned
content: the digest is the content and the size is the content length.
Every item of a successful `scanPhase fs` run satisfies this for the byte
view `srcBytes fs` of the same filesystem. -/
def GoodItem (fs : String → Option Bytes) (m : FileMeta) : Prop :=
  fs m.name = some m.hash ∧ m.size = m.hash.length

/-- The record stream the writer loop produces when no read fails:
used to reason about `writeLoop`'s success value. -/
def recordsOf (fsWrite : String → Option Bytes) :
    SeenTable → List FileMeta → List TarRecord
  | _, [] => []
  | seen, item :: rest =>
    match lookupHash item.hash seen with
    | some canon => linkRecord item.name canon :: recordsOf fsWrite seen rest
    | none =>
      dataRecord item.name item.size (((fsWrite item.name).getD []).take item.size) ::
        recordsOf fsWrite ((item.hash, item.name) :: seen) rest

/-- The `seen_hashes` table after the writer has visited a list of items. -/
def seenAfter : SeenTable → List FileMeta → SeenTable
  | seen, [] => seen
  | seen, item :: rest =>
    match lookupHash item.hash seen with
    | some _ => seenAfter seen rest
    | none => seenAfter ((item.hash, item.name) :: seen) rest

/-- The `FileMeta` the scanner produces for a readable `(name, content)`
entry. -/
def metaOf (p : String × Bytes) : FileMeta :=
  { name := p.1, size := p.2.length, ext := extOf p.1, hash := p.2,
    header := p.2.take 16 }

/-- The bytes of `"hello"`. -/
def helloBytes : Bytes := [104, 101, 108, 108, 111]

/-- The spec's concrete duplicate scenario: `a.txt` and `b.txt` both hold
`"hello"`. -/
def entsAB : List (String × Bytes) := [("a.txt", helloBytes), ("b.txt", helloBytes)]

/-- A file whose leading bytes are not a recognized signature but whose
remainder is a decodable XZ+tar stream holding one data member. -/
def badMagicFile : ArchiveFile :=
  ⟨[0, 0, 0, 0, 0, 0, 0, 0], some [dataRecord "c.txt" 5 helloBytes]⟩

/-- The scanned metadata of the two duplicate entries, in presentation
order (their sort keys tie, so the stable sort keeps this order). -/
def metasAB : List FileMeta :=
  [metaOf ("a.txt", helloBytes), metaOf ("b.txt", helloBytes)]

/-- The record stream the writer emits for `entsAB`: one data record for
the canonical `a.txt` and one link record for the duplicate `b.txt`. -/
def recordsAB : List TarRecord :=
  [dataRecord "a.txt" 5 helloBytes, linkRecord "b.txt" "a.txt"]

/-- Scan-time filesystem for the mid-write failure and skipped-source
scenarios: `a.txt` readable, everything else absent. -/
def fsScanGone : String → Source :=
  fun n => if n = "a.txt" then Source.readable helloBytes else Source.absent

/-- Write-time filesystem for the mid-write failure scenario: every source
has disappeared before `ProgressFileObject` re-opens it, so the open
raises mid-build. -/
def fsWriteGone : String → Source := fun _ => Source.absent

/-- Filesystem for the scan-abort scenario: `a.txt` readable, any other
requested path exists but raises on read (e.g. unreadable permissions). -/
def fsScanRaising : String → Source :=
  fun n => if n = "a.txt" then Source.readable helloBytes else Source.raising

/-! ### Properties of the key comparison -/

theorem cmpNat_eq_iff {a b : Nat} : cmpNat a b = Ordering.eq ↔ a = b := by
  unfold cmpNat
  by_cases h1 : a < b
  · simp [h1]; omega
  · by_cases h2 : b < a
    · simp [h1, h2]; omega
    · simp [h1, h2]; omega

theorem cmpNat_lt_iff {a b : Nat} : cmpNat a b = Ordering.lt ↔ a < b := by
  unfold cmpNat
  by_cases h1 : a < b
  · simp [h1]
  · by_cases h2 : b < a <;> simp [h1, h2]

theorem cmpNat_swap (a b : Nat) : (cmpNat a b).swap = cmpNat b a := by
  unfold cmpNat
  by_cases h1 : a < b
  · have h2 : ¬ b < a := by omega
    simp [h1, h2, Ordering.swap]
  · by_cases h2 : b < a
    · simp [h1, h2, Ordering.swap]
    · simp [h1, h2, Ordering.swap]

theorem cmpNatList_eq_iff : ∀ {x y : List Nat}, cmpNatList x y = Ordering.eq ↔ x = y
  | [], [] => by simp [cmpNatList]
  | [], _ :: _ => by simp [cmpNatList]
  | _ :: _, [] => by simp [cmpNatList]
  | a :: as, b :: bs => by
    simp [cmpNatList, Ordering.then_eq_eq, cmpNat_eq_iff, @cmpNatList_eq_iff as bs]

theorem cmpNatList_swap : ∀ (x y : List Nat), (cmpNatList x y).swap = cmpNatList y x
  | [], [] => rfl
  | [], _ :: _ => rfl
  | _ :: _, [] => rfl
  | a :: as, b :: bs => by
    simp only [cmpNatList, Ordering.swap_then, cmpNat_swap, cmpNatList_swap as bs]

theorem cmpNatList_lt_trans : ∀ {x y z : List Nat}, cmpNatList x y = Ordering.lt →
    cmpNatList y z = Ordering.lt → cmpNatList x z = Ordering.lt
  | [], [], _ => by simp [cmpNatList]
  | [], _ :: _, [] => by intro _ h; simp [cmpNatList] at h
  | [], _ :: _, _ :: _ => by intro _ _; simp [cmpNatList]
  | _ :: _, [], _ => by intro h; simp [cmpNatList] at h
  | _ :: _, _ :: _, [] => by intro _ h; simp [cmpNatList] at h
  | a :: as, b :: bs, c :: cs => by
    simp only [cmpNatList, Ordering.then_eq_lt, cmpNat_lt_iff, cmpNat_eq_iff]
    rintro (h1 | ⟨rfl, h1⟩) (h2 | ⟨rfl, h2⟩)
    · exact Or.inl (Nat.lt_trans h1 h2)
    · exact Or.inl h1
    · exact Or.inl h2
    · exact Or.inr ⟨rfl, cmpNatList_lt_trans h1 h2⟩

theorem charNats_inj {s t : String} (h : charNats s = charNats t) : s = t := by
  have hf : Function.Injective Char.toNat := by
    intro c d hcd
    exact Char.ext (UInt32.ext hcd)
  exact String.ext (List.map_injective_iff.mpr hf h)

theorem cmpKey_eq_fields {a b : FileMeta} (h : cmpKey a b = Ordering.eq) :
    a.header = b.header ∧ a.ext = b.ext ∧ a.size = b.size := by
  unfold cmpKey at h
  rw [Ordering.then_eq_eq, Ordering.then_eq_eq] at h
  obtain ⟨h1, h2, h3⟩ := h
  exact ⟨cmpNatList_eq_iff.mp h1, charNats_inj (cmpNatList_eq_iff.mp h2),
    cmpNat_eq_iff.mp h3⟩

theorem cmpKey_swap (a b : FileMeta) : (cmpKey a b).swap = cmpKey b a := by
  unfold cmpKey
  rw [Ordering.swap_then, Ordering.swap_then, cmpNatList_swap, cmpNatList_swap,
    cmpNat_swap]

theorem cmpKey_lt_trans {a b c : FileMeta} (h1 : cmpKey a b = Ordering.lt)
    (h2 : cmpKey b c = Ordering.lt) : cmpKey a c = Ordering.lt := by
  unfold cmpKey at h1 h2 ⊢
  rw [Ordering.then_eq_lt] at h1 h2 ⊢
  rcases h1 with h1 | ⟨h1e, h1r⟩
  · rcases h2 with h2 | ⟨h2e, h2r⟩
    · exact Or.inl (cmpNatList_lt_trans h1 h2)
    · have hbc := cmpNatList_eq_iff.mp h2e
      rw [← hbc]
      exact Or.inl h1
  · have hab := cmpNatList_eq_iff.mp h1e
    rcases h2 with h2 | ⟨h2e, h2r⟩
    · rw [hab]
      exact Or.inl h2
    · refine Or.inr ⟨by rw [cmpNatList_eq_iff, hab, cmpNatList_eq_iff.mp h2e], ?_⟩
      rw [Ordering.then_eq_lt] at h1r h2r ⊢
      rcases h1r with h1r | ⟨h1re, h1rr⟩
      · rcases h2r with h2r | ⟨h2re, h2rr⟩
        · exact Or.inl (cmpNatList_lt_trans h1r h2r)
        · rw [← cmpNatList_eq_iff.mp h2re]
          exact Or.inl h1r
      · rw [cmpNatList_eq_iff.mp h1re]
        rcases h2r with h2r | ⟨h2re, h2rr⟩
        · exact Or.inl h2r
        · refine Or.inr ⟨h2re, ?_⟩
          rw [cmpNat_lt_iff] at h1rr h2rr ⊢
          omega

theorem planLe_total (a b : FileMeta) : planLe a b ∨ planLe b a := by
  unfold planLe
  cases h : cmpKey a b with
  | lt => left; simp [h]
  | eq => left; simp [h]
  | gt =>
    right
    have hs : cmpKey b a = Ordering.lt := by rw [← cmpKey_swap a b, h]; rfl
    simp [hs]

theorem planLe_trans {a b c : FileMeta} (h1 : planLe a b) (h2 : planLe b c) :
    planLe a c := by
  unfold planLe at h1 h2 ⊢
  cases hab : cmpKey a b with
  | gt => exact absurd hab h1
  | eq =>
    obtain ⟨e1, e2, e3⟩ := cmpKey_eq_fields hab
    have hac : cmpKey a c = cmpKey b c := by unfold cmpKey; rw [e1, e2, e3]
    rw [hac]
    exact h2
  | lt =>
    cases hbc : cmpKey b c with
    | gt => exact absurd hbc h2
    | eq =>
      obtain ⟨e1, e2, e3⟩ := cmpKey_eq_fields hbc
      have hac : cmpKey a c = cmpKey a b := by unfold cmpKey; rw [e1, e2, e3]
      rw [hac, hab]
      simp
    | lt =>
      rw [cmpKey_lt_trans hab hbc]
      simp

/-! ### Properties of the writer loop -/

@[simp] theorem linkRecord_name (n c : String) : (linkRecord n c).name = n := rfl

@[simp] theorem linkRecord_kind (n c : String) :
    (linkRecord n c).kind = RecKind.link := rfl

@[simp] theorem linkRecord_linkname (n c : String) :
    (linkRecord n c).linkname = c := rfl

@[simp] theorem linkRecord_size (n c : String) : (linkRecord n c).size = 0 := rfl

@[simp] theorem linkRecord_payload (n c : String) :
    (linkRecord n c).payload = [] := rfl

@[simp] theorem dataRecord_name (n : String) (s : Nat) (p : Bytes) :
    (dataRecord n s p).name = n := rfl

@[simp] theorem dataRecord_kind (n : String) (s : Nat) (p : Bytes) :
    (dataRecord n s p).kind = RecKind.data := rfl

@[simp] theorem dataRecord_size (n : String) (s : Nat) (p : Bytes) :
    (dataRecord n s p).size = s := rfl

@[simp] theorem dataRecord_payload (n : String) (s : Nat) (p : Bytes) :
    (dataRecord n s p).payload = p := rfl

theorem writeLoop_ok_of_good (fs : String → Option Bytes) :
    ∀ (l : List FileMeta) (seen : SeenTable), (∀ m ∈ l, GoodItem fs m) →
    writeLoop fs seen l = .ok (recordsOf fs seen l)
  | [], _, _ => rfl
  | item :: rest, seen, hg => by
    obtain ⟨hf, hs⟩ := hg item (List.mem_cons_self item rest)
    have hg' : ∀ m ∈ rest, GoodItem fs m :=
      fun m hm => hg m (List.mem_cons_of_mem item hm)
    cases hh : lookupHash item.hash seen with
    | some canon =>
      have ih := writeLoop_ok_of_good fs rest seen hg'
      simp [writeLoop, recordsOf, hh, ih]
    | none =>
      have ih := writeLoop_ok_of_good fs rest ((item.hash, item.name) :: seen) hg'
      have hlen : ¬ item.hash.length < item.size := by omega
      simp [writeLoop, recordsOf, hh, hf, hlen, ih]

theorem eq_recordsOf_of_writeLoop_ok (fs : String → Option Bytes) :
    ∀ (l : List FileMeta) (seen : SeenTable) (R : List TarRecord),
    writeLoop fs seen l = .ok R → R = recordsOf fs seen l
  | [], seen, R => by
    intro h
    simp only [writeLoop, Except.ok.injEq] at h
    simp [recordsOf, ← h]
  | item :: rest, seen, R => by
    intro h
    cases hh : lookupHash item.hash seen with
    | some canon =>
      simp only [writeLoop, hh] at h
      cases hw : writeLoop fs seen rest with
      | error u => rw [hw] at h; simp at h
      | ok rs =>
        rw [hw] at h
        simp only [Except.ok.injEq] at h
        have ih := eq_recordsOf_of_writeLoop_ok fs rest seen rs hw
        simp [recordsOf, hh, ← h, ih]
    | none =>
      simp only [writeLoop, hh] at h
      cases hf : fs item.name with
      | none => rw [hf] at h; simp at h
      | some content =>
        simp only [hf] at h
        by_cases hlen : content.length < item.size
        · rw [if_pos hlen] at h; simp at h
        · rw [if_neg hlen] at h
          cases hw : writeLoop fs ((item.hash, item.name) :: seen) rest with
          | error u => rw [hw] at h; simp at h
          | ok rs =>
            rw [hw] at h
            simp only [Except.ok.injEq] at h
            have ih :=
              eq_recordsOf_of_writeLoop_ok fs rest ((item.hash, item.name) :: seen) rs hw
            simp [recordsOf, hh, hf, ← h, ih]

theorem recordsOf_names (fs : String → Option Bytes) :
    ∀ (seen : SeenTable) (l : List FileMeta),
    (recordsOf fs seen l).map (fun r => r.name) = l.map (fun m => m.name)
  | _, [] => rfl
  | seen, item :: rest => by
    cases hh : lookupHash item.hash seen with
    | some canon => simp [recordsOf, hh, recordsOf_names fs seen rest]
    | none =>
      simp [recordsOf, hh, recordsOf_names fs ((item.hash, item.name) :: seen) rest]

theorem recordsOf_length (fs : String → Option Bytes) (seen : SeenTable)
    (l : List FileMeta) : (recordsOf fs seen l).length = l.length := by
  have h := congrArg List.length (recordsOf_names fs seen l)
  simpa using h

theorem recordsOf_normalized (fs : String → Option Bytes) :
    ∀ (seen : SeenTable) (l : List FileMeta) (r : TarRecord),
    r ∈ recordsOf fs seen l →
    r.uid = 0 ∧ r.gid = 0 ∧ r.uname = "root" ∧ r.gname = "root" ∧ r.mtime = 0
  | _, [], r => by intro h; simp [recordsOf] at h
  | seen, item :: rest, r => by
    intro h
    cases hh : lookupHash item.hash seen with
    | some canon =>
      simp only [recordsOf, hh] at h
      rcases List.mem_cons.mp h with h | h
      · subst h; exact ⟨rfl, rfl, rfl, rfl, rfl⟩
      · exact recordsOf_normalized fs seen rest r h
    | none =>
      simp only [recordsOf, hh] at h
      rcases List.mem_cons.mp h with h | h
      · subst h; exact ⟨rfl, rfl, rfl, rfl, rfl⟩
      · exact recordsOf_normalized fs ((item.hash, item.name) :: seen) rest r h

theorem lookupHash_mem : ∀ {seen : SeenTable} {h : Bytes} {n : String},
    lookupHash h seen = some n → (h, n) ∈ seen := by
  intro seen
  induction seen with
  | nil => intro h n hx; simp [lookupHash] at hx
  | cons p rest ih =>
    intro h n hx
    obtain ⟨k, v⟩ := p
    simp only [lookupHash] at hx
    by_cases hk : k = h
    · rw [if_pos hk] at hx
      cases hx
      subst hk
      exact List.mem_cons_self _ _
    · rw [if_neg hk] at hx
      exact List.mem_cons_of_mem _ (ih hx)

theorem lookupHash_seenAfter_some (h : Bytes) (v : String) :
    ∀ (pref : List FileMeta) (seen : SeenTable), lookupHash h seen = some v →
    lookupHash h (seenAfter seen pref) = some v
  | [], seen => by intro hs; simpa [seenAfter] using hs
  | item :: rest, seen => by
    intro hs
    cases hh : lookupHash item.hash seen with
    | some canon =>
      simp only [seenAfter, hh]
      exact lookupHash_seenAfter_some h v rest seen hs
    | none =>
      simp only [seenAfter, hh]
      apply lookupHash_seenAfter_some h v rest
      have hne : item.hash ≠ h := by
        intro he
        rw [he, hs] at hh
        cases hh
      simpa [lookupHash, hne] using hs

theorem lookupHash_seenAfter_none (h : Bytes) :
    ∀ (pref : List FileMeta) (seen : SeenTable), lookupHash h seen = none →
    lookupHash h (seenAfter seen pref) =
      (pref.find? (fun e => e.hash = h)).map (fun e => e.name)
  | [], seen => by intro hs; simpa [seenAfter, List.find?] using hs
  | item :: rest, seen => by
    intro hs
    by_cases hih : item.hash = h
    · have hh : lookupHash item.hash seen = none := by rw [hih]; exact hs
      simp only [seenAfter, hh]
      have hcons : lookupHash h ((item.hash, item.name) :: seen) = some item.name := by
        simp [lookupHash, hih]
      rw [lookupHash_seenAfter_some h item.name rest _ hcons]
      simp [List.find?, hih]
    · cases hh : lookupHash item.hash seen with
      | some canon =>
        simp only [seenAfter, hh]
        rw [lookupHash_seenAfter_none h rest seen hs]
        simp [List.find?, hih]
      | none =>
        simp only [seenAfter, hh]
        have hs' : lookupHash h ((item.hash, item.name) :: seen) = none := by
          simp [lookupHash, hih, hs]
        rw [lookupHash_seenAfter_none h rest _ hs']
        simp [List.find?, hih]

theorem recordsOf_getElem_link (fs : String → Option Bytes) :
    ∀ (l : List FileMeta) (seen : SeenTable) (k : Nat) (hk : k < l.length)
    (canon : String),
    lookupHash l[k].hash (seenAfter seen (l.take k)) = some canon →
    (recordsOf fs seen l)[k]? = some (linkRecord l[k].name canon)
  | [], _, k, hk, _ => by intro _; simp at hk
  | item :: rest, seen, 0, _, canon => by
    intro hx
    simp only [List.take_zero, seenAfter, List.getElem_cons_zero] at hx
    simp [recordsOf, hx]
  | item :: rest, seen, k + 1, hk, canon => by
    intro hx
    simp only [List.take_succ_cons, List.getElem_cons_succ] at hx
    cases hh : lookupHash item.hash seen with
    | some c0 =>
      rw [seenAfter, hh] at hx
      simp only [recordsOf, hh, List.getElem?_cons_succ]
      exact recordsOf_getElem_link fs rest seen k (by simpa using hk) canon hx
    | none =>
      rw [seenAfter, hh] at hx
      simp only [recordsOf, hh, List.getElem?_cons_succ]
      exact recordsOf_getElem_link fs rest ((item.hash, item.name) :: seen) k
        (by simpa using hk) canon hx

theorem recordsOf_getElem_data (fs : String → Option Bytes) :
    ∀ (l : List FileMeta) (seen : SeenTable) (k : Nat) (hk : k < l.length),
    lookupHash l[k].hash (seenAfter seen (l.take k)) = none →
    (recordsOf fs seen l)[k]? =
      some (dataRecord l[k].name l[k].size (((fs l[k].name).getD []).take l[k].size))
  | [], _, k, hk => by intro _; simp at hk
  | item :: rest, seen, 0, _ => by
    intro hx
    simp only [List.take_zero, seenAfter, List.getElem_cons_zero] at hx
    simp [recordsOf, hx]
  | item :: rest, seen, k + 1, hk => by
    intro hx
    simp only [List.take_succ_cons, List.getElem_cons_succ] at hx
    cases hh : lookupHash item.hash seen with
    | some c0 =>
      rw [seenAfter, hh] at hx
      simp only [recordsOf, hh, List.getElem?_cons_succ]
      exact recordsOf_getElem_data fs rest seen k (by simpa using hk) hx
    | none =>
      rw [seenAfter, hh] at hx
      simp only [recordsOf, hh, List.getElem?_cons_succ]
      exact recordsOf_getElem_data fs rest ((item.hash, item.name) :: seen) k
        (by simpa using hk) hx

/-! ### Properties of the scan phase -/

theorem scanPhase_ok_mem (fs : String → Source) :
    ∀ (names : List String) (metas : List FileMeta),
    scanPhase fs names = .ok metas →
    ∀ m ∈ metas, m.name ∈ names ∧ GoodItem (srcBytes fs) m
  | [], metas => by
    intro h m hm
    simp only [scanPhase, Except.ok.injEq] at h
    rw [← h] at hm
    simp at hm
  | n :: rest, metas => by
    intro h m hm
    cases hfn : fs n with
    | absent =>
      simp only [scanPhase, process_file_metadata, hfn] at h
      obtain ⟨hmem, hg⟩ := scanPhase_ok_mem fs rest metas h m hm
      exact ⟨List.mem_cons_of_mem n hmem, hg⟩
    | raising =>
      simp only [scanPhase, process_file_metadata, hfn] at h
      exact Except.noConfusion h
    | readable c =>
      simp only [scanPhase, process_file_metadata, hfn] at h
      cases hs : scanPhase fs rest with
      | error u => rw [hs] at h; simp [Except.map] at h
      | ok ms =>
        rw [hs] at h
        simp only [Except.map, Except.ok.injEq] at h
        rw [← h] at hm
        rcases List.mem_cons.mp hm with h1 | h1
        · subst h1
          refine ⟨List.mem_cons_self n rest, ?_, rfl⟩
          simp [srcBytes, hfn]
        · obtain ⟨hmem, hg⟩ := scanPhase_ok_mem fs rest ms hs m h1
          exact ⟨List.mem_cons_of_mem n hmem, hg⟩

theorem scanPhase_ok_names (fs : String → Source) :
    ∀ (names : List String) (metas : List FileMeta),
    scanPhase fs names = .ok metas →
    metas.map (fun m => m.name) = names.filter (fun n => (srcBytes fs n).isSome)
  | [], metas => by
    intro h
    simp only [scanPhase, Except.ok.injEq] at h
    rw [← h]
    rfl
  | n :: rest, metas => by
    intro h
    cases hfn : fs n with
    | absent =>
      simp only [scanPhase, process_file_metadata, hfn] at h
      have ih := scanPhase_ok_names fs rest metas h
      simp [List.filter_cons, srcBytes, hfn, ih]
    | raising =>
      simp only [scanPhase, process_file_metadata, hfn] at h
      exact Except.noConfusion h
    | readable c =>
      simp only [scanPhase, process_file_metadata, hfn] at h
      cases hs : scanPhase fs rest with
      | error u => rw [hs] at h; simp [Except.map] at h
      | ok ms =>
        rw [hs] at h
        simp only [Except.map, Except.ok.injEq] at h
        have ih := scanPhase_ok_names fs rest ms hs
        rw [← h]
        simp [List.filter_cons, srcBytes, hfn, ih]

theorem scanPhase_ok_of_no_raising (fs : String → Source) :
    ∀ (names : List String), (∀ n ∈ names, fs n ≠ Source.raising) →
    ∃ metas, scanPhase fs names = .ok metas
  | [] => by intro _; exact ⟨[], rfl⟩
  | n :: rest => by
    intro h
    obtain ⟨ms, hms⟩ := scanPhase_ok_of_no_raising fs rest
      (fun q hq => h q (List.mem_cons_of_mem n hq))
    cases hfn : fs n with
    | absent => exact ⟨ms, by simp [scanPhase, process_file_metadata, hfn, hms]⟩
    | raising => exact absurd hfn (h n (List.mem_cons_self n rest))
    | readable c =>
      refine ⟨metaOf (n, c) :: ms, ?_⟩
      simp [scanPhase, process_file_metadata, hfn, hms, Except.map, metaOf]

theorem scanPhase_raising (fs : String → Source) :
    ∀ (names : List String) (n : String), n ∈ names → fs n = Source.raising →
    scanPhase fs names = .error ()
  | [], n => by intro h _; simp at h
  | m :: rest, n => by
    intro hmem hr
    rcases List.mem_cons.mp hmem with h | h
    · subst h
      simp [scanPhase, process_file_metadata, hr]
    · cases hfm : fs m with
      | absent =>
        simp [scanPhase, process_file_metadata, hfm,
          scanPhase_raising fs rest n h hr]
      | raising => simp [scanPhase, process_file_metadata, hfm]
      | readable c =>
        simp [scanPhase, process_file_metadata, hfm,
          scanPhase_raising fs rest n h hr, Except.map]

theorem scanPhase_map_fst (fs : String → Source) :
    ∀ (ents : List (String × Bytes)),
    (∀ p ∈ ents, fs p.1 = Source.readable p.2) →
    scanPhase fs (ents.map Prod.fst) = .ok (ents.map metaOf)
  | [] => by intro _; rfl
  | p :: rest => by
    intro h
    have hp := h p (List.mem_cons_self p rest)
    have ih := scanPhase_map_fst fs rest (fun q hq => h q (List.mem_cons_of_mem p hq))
    simp [scanPhase, process_file_metadata, hp, ih, Except.map, metaOf]

theorem find?_entries_nodup :
    ∀ (entries : List (String × Bytes)) (p : String × Bytes), p ∈ entries →
    (entries.map Prod.fst).Nodup → entries.find? (fun q => q.1 = p.1) = some p
  | [], p => by intro h _; simp at h
  | q :: rest, p => by
    intro hmem hnd
    rcases List.mem_cons.mp hmem with h | h
    · subst h
      simp [List.find?]
    · have hq1 : q.1 ∉ rest.map Prod.fst := by
        rw [List.map_cons] at hnd
        exact (List.nodup_cons.mp hnd).1
      have hne : q.1 ≠ p.1 := by
        intro he
        rw [he] at hq1
        exact hq1 (List.mem_map_of_mem Prod.fst h)
      have hrest : (rest.map Prod.fst).Nodup := by
        rw [List.map_cons] at hnd
        exact (List.nodup_cons.mp hnd).2
      simp only [List.find?, hne, decide_eq_false, Bool.false_eq_true]
      exact find?_entries_nodup rest p h hrest

theorem entriesFs_eq_of_mem {entries : List (String × Bytes)}
    {p : String × Bytes} (hmem : p ∈ entries)
    (hnd : (entries.map Prod.fst).Nodup) : entriesFs entries p.1 = some p.2 := by
  unfold entriesFs
  rw [find?_entries_nodup entries p hmem hnd]
  rfl

theorem entriesSrc_eq_of_mem {entries : List (String × Bytes)}
    {p : String × Bytes} (hmem : p ∈ entries)
    (hnd : (entries.map Prod.fst).Nodup) :
    entriesSrc entries p.1 = Source.readable p.2 := by
  unfold entriesSrc
  rw [find?_entries_nodup entries p hmem hnd]

/-! ### Properties of the extraction loop -/

theorem lookupDir_insert_self (n : String) (v : Bytes) (d : DirState) :
    lookupDir n (insertDir n v d) = some v := by
  simp [insertDir, lookupDir]

theorem lookupDir_insert_ne {n m : String} (hne : m ≠ n) (v : Bytes)
    (d : DirState) : lookupDir n (insertDir m v d) = lookupDir n d := by
  simp [insertDir, lookupDir, hne]

theorem extractLoop_roundtrip (fs : String → Option Bytes) (targets : List String) :
    ∀ (l : List FileMeta) (seen : SeenTable) (prev : List TarRecord)
    (dir : DirState),
    (∀ m ∈ l, GoodItem fs m) →
    (∀ m ∈ l, m.name ∈ targets) →
    (l.map (fun m => m.name)).Nodup →
    (∀ q ∈ seen, lookupDir q.2 dir = some q.1) →
    (∀ q ∈ seen, q.2 ∉ l.map (fun m => m.name)) →
    ∃ dir', extractLoop targets prev dir (recordsOf fs seen l) = .ok dir' ∧
      (∀ m ∈ l, lookupDir m.name dir' = some m.hash) ∧
      (∀ n, n ∉ l.map (fun m => m.name) → lookupDir n dir' = lookupDir n dir)
  | [], seen, prev, dir => by
    intro _ _ _ _ _
    exact ⟨dir, rfl, by simp, fun n _ => rfl⟩
  | item :: rest, seen, prev, dir => by
    intro hGood hTarg hNodup hSeen hSeenN
    obtain ⟨hf, hsz⟩ := hGood item (List.mem_cons_self item rest)
    have htargi : item.name ∈ targets := hTarg item (List.mem_cons_self item rest)
    have hGood' : ∀ m ∈ rest, GoodItem fs m :=
      fun m hm => hGood m (List.mem_cons_of_mem item hm)
    have hTarg' : ∀ m ∈ rest, m.name ∈ targets :=
      fun m hm => hTarg m (List.mem_cons_of_mem item hm)
    have hNodupHead : item.name ∉ rest.map (fun m => m.name) := by
      rw [List.map_cons] at hNodup
      exact (List.nodup_cons.mp hNodup).1
    have hNodup' : (rest.map (fun m => m.name)).Nodup := by
      rw [List.map_cons] at hNodup
      exact (List.nodup_cons.mp hNodup).2
    cases hh : lookupHash item.hash seen with
    | some canon =>
      have hcdir : lookupDir canon dir = some item.hash :=
        hSeen (item.hash, canon) (lookupHash_mem hh)
      have hSeen' : ∀ q ∈ seen,
          lookupDir q.2 (insertDir item.name item.hash dir) = some q.1 := by
        intro q hq
        have hqn : q.2 ≠ item.name := by
          intro he
          have := hSeenN q hq
          rw [he] at this
          exact this (by simp)
        rw [lookupDir_insert_ne (fun he => hqn he.symm)]
        exact hSeen q hq
      have hSeenN' : ∀ q ∈ seen, q.2 ∉ rest.map (fun m => m.name) := by
        intro q hq hmem
        exact hSeenN q hq (by simp [hmem])
      obtain ⟨dir', hEq, hAll, hFrame⟩ :=
        extractLoop_roundtrip fs targets rest seen
          (prev ++ [linkRecord item.name canon])
          (insertDir item.name item.hash dir) hGood' hTarg' hNodup' hSeen' hSeenN'
      refine ⟨dir', ?_, ?_, ?_⟩
      · simp only [recordsOf, hh, extractLoop, linkRecord_name, linkRecord_kind,
          linkRecord_linkname]
        rw [if_pos htargi, hcdir]
        exact hEq
      · intro m hm
        rcases List.mem_cons.mp hm with h | h
        · subst h
          rw [hFrame m.name hNodupHead]
          exact lookupDir_insert_self m.name m.hash dir
        · exact hAll m h
      · intro n hn
        have hn1 : n ≠ item.name := by
          intro he
          exact hn (by simp [he])
        have hn2 : n ∉ rest.map (fun m => m.name) := by
          intro he
          exact hn (by simp [he])
        rw [hFrame n hn2, lookupDir_insert_ne (fun he => hn1 he.symm)]
    | none =>
      have hpayload : ((fs item.name).getD []).take item.size = item.hash := by
        rw [hf]
        simp [hsz]
      have hSeen' : ∀ q ∈ (item.hash, item.name) :: seen,
          lookupDir q.2 (insertDir item.name item.hash dir) = some q.1 := by
        intro q hq
        rcases List.mem_cons.mp hq with h | h
        · subst h
          exact lookupDir_insert_self item.name item.hash dir
        · have hqn : q.2 ≠ item.name := by
            intro he
            have := hSeenN q h
            rw [he] at this
            exact this (by simp)
          rw [lookupDir_insert_ne (fun he => hqn he.symm)]
          exact hSeen q h
      have hSeenN' : ∀ q ∈ (item.hash, item.name) :: seen,
          q.2 ∉ rest.map (fun m => m.name) := by
        intro q hq hmem
        rcases List.mem_cons.mp hq with h | h
        · subst h
          exact hNodupHead hmem
        · exact hSeenN q h (by simp [hmem])
      obtain ⟨dir', hEq, hAll, hFrame⟩ :=
        extractLoop_roundtrip fs targets rest ((item.hash, item.name) :: seen)
          (prev ++ [dataRecord item.name item.size item.hash])
          (insertDir item.name item.hash dir) hGood' hTarg' hNodup' hSeen' hSeenN'
      refine ⟨dir', ?_, ?_, ?_⟩
      · simp only [recordsOf, hh, extractLoop, dataRecord_name, dataRecord_kind,
          dataRecord_payload]
        rw [if_pos htargi, hpayload]
        exact hEq
      · intro m hm
        rcases List.mem_cons.mp hm with h | h
        · subst h
          rw [hFrame m.name hNodupHead]
          exact lookupDir_insert_self m.name m.hash dir
        · exact hAll m h
      · intro n hn
        have hn1 : n ≠ item.name := by
          intro he
          exact hn (by simp [he])
        have hn2 : n ∉ rest.map (fun m => m.name) := by
          intro he
          exact hn (by simp [he])
        rw [hFrame n hn2, lookupDir_insert_ne (fun he => hn1 he.symm)]

/-! ### Further helper lemmas -/

theorem plannedOrder_perm (metas : List FileMeta) :
    List.Perm (plannedOrder metas) metas :=
  List.perm_insertionSort planLe metas

theorem scanPhase_congr (fs1 fs2 : String → Source) :
    ∀ (names : List String), (∀ n ∈ names, fs1 n = fs2 n) →
    scanPhase fs1 names = scanPhase fs2 names
  | [] => by intro _; rfl
  | n :: rest => by
    intro h
    have hn := h n (List.mem_cons_self n rest)
    have ih := scanPhase_congr fs1 fs2 rest
      (fun q hq => h q (List.mem_cons_of_mem n hq))
    simp only [scanPhase, process_file_metadata, hn, ih]

theorem writeLoop_congr (fs1 fs2 : String → Option Bytes) :
    ∀ (l : List FileMeta) (seen : SeenTable),
    (∀ m ∈ l, fs1 m.name = fs2 m.name) →
    writeLoop fs1 seen l = writeLoop fs2 seen l
  | [], _, _ => rfl
  | item :: rest, seen, h => by
    have hh := h item (List.mem_cons_self item rest)
    have htail : ∀ m ∈ rest, fs1 m.name = fs2 m.name :=
      fun m hm => h m (List.mem_cons_of_mem item hm)
    cases hl : lookupHash item.hash seen with
    | some canon =>
      simp only [writeLoop, hl, writeLoop_congr fs1 fs2 rest seen htail]
    | none =>
      simp only [writeLoop, hl, hh,
        writeLoop_congr fs1 fs2 rest ((item.hash, item.name) :: seen) htail]

theorem compress_body_ok {fsScan fsWrite : String → Source}
    {names : List String} {outName : String} {file : ArchiveFile}
    {R : List TarRecord}
    (hfile : (compress_ultimate fsScan fsWrite names outName).2 = some file)
    (hbody : file.body = some R) :
    ∃ metas, scanPhase fsScan names = .ok metas ∧
      writeLoop (srcBytes fsWrite) [] (plannedOrder metas) = .ok R := by
  simp only [compress_ultimate] at hfile
  cases hs : scanPhase fsScan names with
  | error u => rw [hs] at hfile; simp at hfile
  | ok metas =>
    simp only [hs] at hfile
    refine ⟨metas, rfl, ?_⟩
    cases hw : writeLoop (srcBytes fsWrite) [] (plannedOrder metas) with
    | error u =>
      simp only [hw, Option.some.injEq] at hfile
      rw [← hfile] at hbody
      simp at hbody
    | ok rs =>
      simp only [hw, Option.some.injEq] at hfile
      rw [← hfile] at hbody
      simp only [Option.some.injEq] at hbody
      rw [hbody]

/-! ### The claims -/

/-- C1: building a container from entries where `a.txt` and `b.txt` both
hold the bytes of `"hello"` writes `b.txt` as a Link record targeting
`a.txt`, and extracting only the name `b.txt` succeeds and materializes
exactly the bytes of `"hello"`: the link resolves to the canonical entry's
bytes even though the canonical name `a.txt` is not in the requested set. -/
theorem link_resolution_on_selective_extract_c1 :
    (build entsAB).2 = some ⟨MAGIC_NUMBER,
      some [dataRecord "a.txt" 5 helloBytes, linkRecord "b.txt" "a.txt"]⟩ ∧
    (extract_selected_files [] ⟨MAGIC_NUMBER,
      some [dataRecord "a.txt" 5 helloBytes, linkRecord "b.txt" "a.txt"]⟩
      ["b.txt"]).1.1 = true ∧
    (extract_selected_files [] ⟨MAGIC_NUMBER,
      some [dataRecord "a.txt" 5 helloBytes, linkRecord "b.txt" "a.txt"]⟩
      ["b.txt"]).2 = [("b.txt", helloBytes)] := by
  refine ⟨by decide, by decide, by decide⟩

/-- C5 counterexample: an input whose leading bytes are all zero (not a
recognized signature) over a decodable body is rejected by listing, but
extraction does not reject it: it skips the signature length, decompresses
the body and succeeds, materializing the member — contradicting the claim
that both listing and extraction reject such inputs without parsing or
decompressing further. -/
theorem magic_rejection_c5_cex :
    magicOK badMagicFile.magic = false ∧
    (list_archive_contents badMagicFile).1 = none ∧
    (extract_selected_files [] badMagicFile ["c.txt"]).1.1 = true ∧
    (extract_selected_files [] badMagicFile ["c.txt"]).2 =
      [("c.txt", helloBytes)] := by
  refine ⟨by decide, by decide, by decide, by decide⟩

/-- C5 amended: only listing rejects an input whose leading bytes are not a
recognized signature — it returns the invalid-format error whatever the
body holds, so it never parses or decompresses the body; extraction never
inspects the leading bytes at all: its result is the same for any two
magics over the same body. -/
theorem magic_rejection_listing_only_c5 (m m2 : Bytes)
    (body : Option (List TarRecord)) (targets : List String)
    (prior : DirState) (hm : magicOK m = false) :
    list_archive_contents ⟨m, body⟩ = (none, "Invalid File Format") ∧
    extract_selected_files prior ⟨m, body⟩ targets =
      extract_selected_files prior ⟨m2, body⟩ targets := by
  constructor
  · simp [list_archive_contents, hm]
  · rfl

theorem magic_rejection_listing_only_c5_witness :
    magicOK badMagicFile.magic = false ∧
    (list_archive_contents ⟨badMagicFile.magic, badMagicFile.body⟩ =
        (none, "Invalid File Format") ∧
      extract_selected_files [] ⟨badMagicFile.magic, badMagicFile.body⟩ ["c.txt"] =
        extract_selected_files [] ⟨MAGIC_NUMBER, badMagicFile.body⟩ ["c.txt"]) :=
  ⟨by decide,
    magic_rejection_listing_only_c5 badMagicFile.magic MAGIC_NUMBER
      badMagicFile.body ["c.txt"] [] (by decide)⟩

/-- C6 counterexample: extraction called with an empty set of requested
names on a well-formed container is not a no-op success — it returns
failure with "No matching files found." (after clearing the output
directory). -/
theorem empty_request_c6_cex :
    (build entsAB).2 = some ⟨MAGIC_NUMBER, some recordsAB⟩ ∧
    (extract_selected_files [] ⟨MAGIC_NUMBER, some recordsAB⟩ []).1 =
      (false, "No matching files found.") := by
  refine ⟨by decide, by decide⟩

/-- C6 amended: extraction called with an empty set of requested names
always fails: on a decodable body it returns the "No matching files
found." error, on an undecodable body the generic extraction error; in
both cases the output directory is left cleared and no sink is written. -/
theorem empty_request_failure_c6 (prior : DirState) (magic : Bytes)
    (records : List TarRecord) :
    extract_selected_files prior ⟨magic, some records⟩ [] =
      ((false, "No matching files found."), []) ∧
    extract_selected_files prior ⟨magic, none⟩ [] =
      ((false, "Extraction Error"), []) := by
  constructor
  · have hfil : records.filter (fun r => r.name ∈ ([] : List String)) = [] := by
      simp
    simp [extract_selected_files, clear_extracted_folder, hfil]
  · rfl

/-- C8: when the source vanishes between the scan and the streaming write,
the build aborts with an error as the claim requires, but the partially
written output file remains on disk: it still starts with the valid magic
(so the magic check of listing accepts it) while its truncated body no
longer decodes — exactly the "valid-looking magic, corrupt body" state the
claim says must not be left behind. -/
theorem midwrite_abort_leaves_partial_file_c8 :
    compress_ultimate fsScanGone fsWriteGone ["a.txt"] "archive" =
      (none, some ⟨MAGIC_NUMBER, none⟩) ∧
    magicOK MAGIC_NUMBER = true ∧
    list_archive_contents ⟨MAGIC_NUMBER, none⟩ = (none, "CorruptStream") := by
  refine ⟨by decide, by decide, by decide⟩

/-- C9: every record in the body of a container written by
`compress_ultimate` — data and link records alike — carries the normalized
metadata fixed by `reset_tar_info`: owner and group ids 0, owner and group
names "root", and modification time 0. -/
theorem metadata_normalized_c9 (fsScan fsWrite : String → Source)
    (names : List String) (outName : String) (file : ArchiveFile)
    (R : List TarRecord)
    (hfile : (compress_ultimate fsScan fsWrite names outName).2 = some file)
    (hbody : file.body = some R) :
    ∀ r ∈ R, r.uid = 0 ∧ r.gid = 0 ∧ r.uname = "root" ∧ r.gname = "root" ∧
      r.mtime = 0 := by
  intro r hr
  obtain ⟨metas, _, hw⟩ := compress_body_ok hfile hbody
  have hR := eq_recordsOf_of_writeLoop_ok (srcBytes fsWrite)
    (plannedOrder metas) [] R hw
  rw [hR] at hr
  exact recordsOf_normalized (srcBytes fsWrite) [] (plannedOrder metas) r hr

theorem metadata_normalized_c9_witness :
    ((compress_ultimate (entriesSrc entsAB) (entriesSrc entsAB)
        ["a.txt", "b.txt"] "archive").2 =
      some ⟨MAGIC_NUMBER, some recordsAB⟩ ∧
      (⟨MAGIC_NUMBER, some recordsAB⟩ : ArchiveFile).body = some recordsAB) ∧
    ((linkRecord "b.txt" "a.txt").uid = 0 ∧
      (linkRecord "b.txt" "a.txt").gid = 0 ∧
      (linkRecord "b.txt" "a.txt").uname = "root" ∧
      (linkRecord "b.txt" "a.txt").gname = "root" ∧
      (linkRecord "b.txt" "a.txt").mtime = 0) :=
  ⟨⟨by decide, by decide⟩,
    metadata_normalized_c9 (entriesSrc entsAB) (entriesSrc entsAB)
      ["a.txt", "b.txt"] "archive" ⟨MAGIC_NUMBER, some recordsAB⟩ recordsAB
      (by decide) (by decide) (linkRecord "b.txt" "a.txt") (by decide)⟩

/-- C10: every extraction call first clears the output directory: its
whole result is independent of what the directory held before the call, so
earlier extraction results are destroyed; and when the extraction then
fails — body does not decode, or no member matches the requested names —
the directory is left emptied. -/
theorem extraction_clears_output_dir_c10 (prior prior2 : DirState)
    (file : ArchiveFile) (targets : List String) (magic : Bytes)
    (records : List TarRecord)
    (hnm : records.filter (fun r => r.name ∈ targets) = []) :
    extract_selected_files prior file targets =
      extract_selected_files prior2 file targets ∧
    extract_selected_files prior ⟨magic, none⟩ targets =
      ((false, "Extraction Error"), []) ∧
    extract_selected_files prior ⟨magic, some records⟩ targets =
      ((false, "No matching files found."), []) := by
  refine ⟨rfl, rfl, ?_⟩
  simp [extract_selected_files, clear_extracted_folder, hnm]

theorem extraction_clears_output_dir_c10_witness :
    ([dataRecord "a.txt" 5 helloBytes] : List TarRecord).filter
        (fun r => r.name ∈ ["zzz"]) = [] ∧
    (extract_selected_files [("old.bin", [1, 2])]
          ⟨MAGIC_NUMBER, some recordsAB⟩ ["zzz"] =
        extract_selected_files [] ⟨MAGIC_NUMBER, some recordsAB⟩ ["zzz"] ∧
      extract_selected_files [("old.bin", [1, 2])] ⟨MAGIC_NUMBER, none⟩ ["zzz"] =
        ((false, "Extraction Error"), []) ∧
      extract_selected_files [("old.bin", [1, 2])]
          ⟨MAGIC_NUMBER, some [dataRecord "a.txt" 5 helloBytes]⟩ ["zzz"] =
        ((false, "No matching files found."), [])) :=
  ⟨by decide,
    extraction_clears_output_dir_c10 [("old.bin", [1, 2])] []
      ⟨MAGIC_NUMBER, some recordsAB⟩ ["zzz"] MAGIC_NUMBER
      [dataRecord "a.txt" 5 helloBytes] (by decide)⟩

/-- C2: in a successful writer pass over the planned order (the writer of
`compress_ultimate`, starting from an empty `seen_hashes` table), an entry
whose hash does not occur earlier in the planned order is written as a real
Data record under its own name with its payload streamed from its source,
and an entry whose hash occurred earlier is written as a zero-payload Link
record whose target is the first — canonical — entry with that hash; so
two entries with identical content produce exactly one Data record and one
Link record between them. -/
theorem dedup_invariant_c2 (fsWrite : String → Option Bytes)
    (l : List FileMeta) (R : List TarRecord)
    (hw : writeLoop fsWrite [] l = .ok R) :
    R.length = l.length ∧
    ∀ (k : Nat) (hk : k < l.length),
      ((l.take k).find? (fun q => q.hash = l[k].hash) = none →
        R[k]? = some (dataRecord l[k].name l[k].size
          (((fsWrite l[k].name).getD []).take l[k].size))) ∧
      (∀ e, (l.take k).find? (fun q => q.hash = l[k].hash) = some e →
        R[k]? = some (linkRecord l[k].name e.name) ∧
        (linkRecord l[k].name e.name).kind = RecKind.link ∧
        (linkRecord l[k].name e.name).payload = [] ∧
        (linkRecord l[k].name e.name).size = 0) := by
  have hR := eq_recordsOf_of_writeLoop_ok fsWrite l [] R hw
  subst hR
  refine ⟨recordsOf_length fsWrite [] l, ?_⟩
  intro k hk
  have hchar := lookupHash_seenAfter_none l[k].hash (l.take k) [] rfl
  constructor
  · intro hfind
    rw [hfind] at hchar
    simp only [Option.map_none'] at hchar
    exact recordsOf_getElem_data fsWrite l [] k hk hchar
  · intro e hfind
    rw [hfind] at hchar
    simp only [Option.map_some'] at hchar
    exact ⟨recordsOf_getElem_link fsWrite l [] k hk e.name hchar, rfl, rfl, rfl⟩

theorem dedup_invariant_c2_witness :
    writeLoop (entriesFs entsAB) [] metasAB = .ok recordsAB ∧
    (recordsAB.length = metasAB.length ∧
      ∀ (k : Nat) (hk : k < metasAB.length),
        ((metasAB.take k).find? (fun q => q.hash = metasAB[k].hash) = none →
          recordsAB[k]? = some (dataRecord metasAB[k].name metasAB[k].size
            ((((entriesFs entsAB) metasAB[k].name).getD []).take metasAB[k].size))) ∧
        (∀ e, (metasAB.take k).find? (fun q => q.hash = metasAB[k].hash) = some e →
          recordsAB[k]? = some (linkRecord metasAB[k].name e.name) ∧
          (linkRecord metasAB[k].name e.name).kind = RecKind.link ∧
          (linkRecord metasAB[k].name e.name).payload = [] ∧
          (linkRecord metasAB[k].name e.name).size = 0)) :=
  ⟨by rfl, dedup_invariant_c2 (entriesFs entsAB) metasAB recordsAB (by rfl)⟩

/-- C7 counterexample: a failure reading an individual source during the
concurrent scan does abort the whole build. Here `locked.bin` exists but
raises on read; the worker exception re-raises at
`list(executor.map(...))` and the outer `except` aborts everything: the
readable `a.txt` is not compressed and no output file is produced —
contradicting "never aborts the whole scan or the whole build; the
remaining entries are still scanned and compressed". -/
theorem scan_read_failure_aborts_c7_cex :
    fsScanRaising "locked.bin" = Source.raising ∧
    fsScanRaising "a.txt" = Source.readable helloBytes ∧
    compress_ultimate fsScanRaising fsScanRaising ["a.txt", "locked.bin"]
      "archive" = (none, none) := by
  refine ⟨by decide, by decide, by decide⟩

/-- C7 amended: only a source missing at scan time (the `os.path.exists`
guard of `process_file_metadata`) is handled per-entry, and it is skipped
silently — no warning is recorded; when no source raises, the build
succeeds and archives exactly the readable names, with no missing name
reaching the archive. A source whose read raises during the scan instead
aborts the entire build, leaving no output file. -/
theorem scan_failure_semantics_c7 (fs : String → Source) (names : List String)
    (outName : String) :
    ((∀ n ∈ names, fs n ≠ Source.raising) →
      ∃ R, compress_ultimate fs fs names outName =
          (some (outputPath outName), some ⟨MAGIC_NUMBER, some R⟩) ∧
        List.Perm (R.map (fun r => r.name))
          (names.filter (fun n => (srcBytes fs n).isSome)) ∧
        ∀ n ∈ names, fs n = Source.absent → ¬ n ∈ R.map (fun r => r.name)) ∧
    (∀ n ∈ names, fs n = Source.raising →
      compress_ultimate fs fs names outName = (none, none)) := by
  constructor
  · intro hnr
    obtain ⟨metas, hs⟩ := scanPhase_ok_of_no_raising fs names hnr
    have hgood : ∀ m ∈ plannedOrder metas, GoodItem (srcBytes fs) m := by
      intro m hm
      exact (scanPhase_ok_mem fs names metas hs m
        ((plannedOrder_perm metas).mem_iff.mp hm)).2
    have hw := writeLoop_ok_of_good (srcBytes fs) (plannedOrder metas) [] hgood
    refine ⟨recordsOf (srcBytes fs) [] (plannedOrder metas), ?_, ?_, ?_⟩
    · simp only [compress_ultimate, hs, hw]
    · rw [recordsOf_names (srcBytes fs) [] (plannedOrder metas)]
      have hperm := (plannedOrder_perm metas).map (fun m => m.name)
      rw [scanPhase_ok_names fs names metas hs] at hperm
      exact hperm
    · intro n hn habs hmem
      rw [recordsOf_names (srcBytes fs) [] (plannedOrder metas)] at hmem
      have hperm := (plannedOrder_perm metas).map (fun m => m.name)
      have hmem2 := hperm.mem_iff.mp hmem
      rw [scanPhase_ok_names fs names metas hs] at hmem2
      have hsome := (List.mem_filter.mp hmem2).2
      rw [show srcBytes fs n = none from by simp [srcBytes, habs]] at hsome
      simp at hsome
  · intro n hn hr
    simp only [compress_ultimate, scanPhase_raising fs names n hn hr]

theorem scan_failure_semantics_c7_witness :
    (∀ n ∈ ["a.txt", "gone.bin"], fsScanGone n ≠ Source.raising) ∧
    (∃ R, compress_ultimate fsScanGone fsScanGone ["a.txt", "gone.bin"]
          "archive" =
        (some (outputPath "archive"), some ⟨MAGIC_NUMBER, some R⟩) ∧
      List.Perm (R.map (fun r => r.name))
        (["a.txt", "gone.bin"].filter
          (fun n => (srcBytes fsScanGone n).isSome)) ∧
      ∀ n ∈ ["a.txt", "gone.bin"], fsScanGone n = Source.absent →
        ¬ n ∈ R.map (fun r => r.name)) :=
  ⟨by decide,
    (scan_failure_semantics_c7 fsScanGone ["a.txt", "gone.bin"] "archive").1
      (by decide)⟩

/-- C4: building the same entry set twice — same names, same contents,
same order of presentation — yields identical container output (the two
filesystem snapshots need only agree on the named entries); and the entry
order is the deterministic stable sort by the composite key (leading
bytes, extension, size): the planned order is sorted under `planLe` and
every `planLe`-ordered pair of the input — in particular every tie —
keeps its relative order. -/
theorem reproducible_build_c4 (fs1 fs2 : String → Source)
    (names : List String) (outName : String) (metas l : List FileMeta)
    (a b : FileMeta) (hagree : ∀ n ∈ names, fs1 n = fs2 n)
    (hab : planLe a b) (hsub : List.Sublist [a, b] l) :
    compress_ultimate fs1 fs1 names outName =
      compress_ultimate fs2 fs2 names outName ∧
    List.Sorted planLe (plannedOrder metas) ∧
    List.Sublist [a, b] (plannedOrder l) := by
  refine ⟨?_, ?_, ?_⟩
  · have hscan : scanPhase fs1 names = scanPhase fs2 names :=
      scanPhase_congr fs1 fs2 names hagree
    simp only [compress_ultimate]
    rw [hscan]
    cases hs : scanPhase fs2 names with
    | error u => rfl
    | ok ms =>
      have hnames : ∀ m ∈ plannedOrder ms,
          srcBytes fs1 m.name = srcBytes fs2 m.name := by
        intro m hm
        have hm2 : m ∈ ms := (plannedOrder_perm ms).mem_iff.mp hm
        have hmem := (scanPhase_ok_mem fs2 names ms hs m hm2).1
        simp [srcBytes, hagree m.name hmem]
      simp only [writeLoop_congr (srcBytes fs1) (srcBytes fs2) (plannedOrder ms)
        [] hnames]
  · haveI : IsTotal FileMeta planLe := ⟨planLe_total⟩
    haveI : IsTrans FileMeta planLe := ⟨fun x y z => planLe_trans⟩
    exact List.sorted_insertionSort planLe metas
  · exact List.pair_sublist_insertionSort hab hsub

theorem reproducible_build_c4_witness :
    (∀ n ∈ ["a.txt", "b.txt"], entriesSrc entsAB n = entriesSrc entsAB n) ∧
    planLe (metaOf ("a.txt", helloBytes)) (metaOf ("b.txt", helloBytes)) ∧
    List.Sublist [metaOf ("a.txt", helloBytes), metaOf ("b.txt", helloBytes)]
      metasAB ∧
    (compress_ultimate (entriesSrc entsAB) (entriesSrc entsAB)
        ["a.txt", "b.txt"] "archive" =
      compress_ultimate (entriesSrc entsAB) (entriesSrc entsAB)
        ["a.txt", "b.txt"] "archive" ∧
      List.Sorted planLe (plannedOrder metasAB) ∧
      List.Sublist [metaOf ("a.txt", helloBytes), metaOf ("b.txt", helloBytes)]
        (plannedOrder metasAB)) :=
  ⟨fun n _ => rfl, by decide, List.Sublist.refl _,
    reproducible_build_c4 (entriesSrc entsAB) (entriesSrc entsAB)
      ["a.txt", "b.txt"] "archive" metasAB metasAB
      (metaOf ("a.txt", helloBytes)) (metaOf ("b.txt", helloBytes))
      (fun n _ => rfl) (by decide) (List.Sublist.refl _)⟩

/-- C3: round-trip — for every entry set with distinct names, building a
container and then extracting all the names materializes, for every
entry, exactly its original bytes; for a nonempty entry set the extraction
reports success. -/
theorem roundtrip_c3 (entries : List (String × Bytes))
    (hnd : (entries.map Prod.fst).Nodup) :
    ∃ file, (build entries).2 = some file ∧
      (∀ p ∈ entries,
        lookupDir p.1
          (extract_selected_files [] file (entries.map Prod.fst)).2 =
          some p.2) ∧
      (entries ≠ [] →
        (extract_selected_files [] file (entries.map Prod.fst)).1.1 = true) := by
  have hfind : ∀ p ∈ entries, entriesSrc entries p.1 = Source.readable p.2 :=
    fun p hp => entriesSrc_eq_of_mem hp hnd
  have hscan : scanPhase (entriesSrc entries) (entries.map Prod.fst) =
      .ok (entries.map metaOf) :=
    scanPhase_map_fst (entriesSrc entries) entries hfind
  have hgoodm : ∀ m ∈ entries.map metaOf,
      GoodItem (srcBytes (entriesSrc entries)) m := by
    intro m hm
    obtain ⟨p, hp, rfl⟩ := List.mem_map.mp hm
    refine ⟨?_, rfl⟩
    show srcBytes (entriesSrc entries) (metaOf p).name = some (metaOf p).hash
    simp [srcBytes, metaOf, hfind p hp]
  have hperm := plannedOrder_perm (entries.map metaOf)
  have hgoodp : ∀ m ∈ plannedOrder (entries.map metaOf),
      GoodItem (srcBytes (entriesSrc entries)) m :=
    fun m hm => hgoodm m (hperm.mem_iff.mp hm)
  have hmapnames : (entries.map metaOf).map (fun m => m.name) =
      entries.map Prod.fst := by
    rw [List.map_map]
    rfl
  have hpermnames := hperm.map (fun m => m.name)
  rw [hmapnames] at hpermnames
  have hnodupp : ((plannedOrder (entries.map metaOf)).map (fun m => m.name)).Nodup :=
    (hpermnames.nodup_iff).mpr hnd
  have htargets : ∀ m ∈ plannedOrder (entries.map metaOf),
      m.name ∈ entries.map Prod.fst :=
    fun m hm => hpermnames.mem_iff.mp (List.mem_map_of_mem _ hm)
  have hw := writeLoop_ok_of_good (srcBytes (entriesSrc entries))
    (plannedOrder (entries.map metaOf)) [] hgoodp
  have hbuild : (build entries).2 = some ⟨MAGIC_NUMBER,
      some (recordsOf (srcBytes (entriesSrc entries)) []
        (plannedOrder (entries.map metaOf)))⟩ := by
    simp only [build, compress_ultimate, hscan, hw]
  obtain ⟨dir', hEq, hAll, _⟩ :=
    extractLoop_roundtrip (srcBytes (entriesSrc entries)) (entries.map Prod.fst)
      (plannedOrder (entries.map metaOf)) [] [] [] hgoodp htargets hnodupp
      (by intro q hq; simp at hq) (by intro q hq; simp at hq)
  have hfilter : (recordsOf (srcBytes (entriesSrc entries)) []
      (plannedOrder (entries.map metaOf))).filter
        (fun r => r.name ∈ entries.map Prod.fst) =
      recordsOf (srcBytes (entriesSrc entries)) []
        (plannedOrder (entries.map metaOf)) := by
    apply List.filter_eq_self.mpr
    intro r hr
    have hrn : r.name ∈ (recordsOf (srcBytes (entriesSrc entries)) []
        (plannedOrder (entries.map metaOf))).map (fun r => r.name) :=
      List.mem_map_of_mem _ hr
    rw [recordsOf_names] at hrn
    exact decide_eq_true (hpermnames.mem_iff.mp hrn)
  have hres : entries ≠ [] →
      extract_selected_files [] ⟨MAGIC_NUMBER,
          some (recordsOf (srcBytes (entriesSrc entries)) []
            (plannedOrder (entries.map metaOf)))⟩ (entries.map Prod.fst) =
        ((true, "Extracted " ++
          toString (recordsOf (srcBytes (entriesSrc entries)) []
            (plannedOrder (entries.map metaOf))).length ++ " files."), dir') := by
    intro hne
    have hlen : (recordsOf (srcBytes (entriesSrc entries)) []
        (plannedOrder (entries.map metaOf))).length = entries.length := by
      rw [recordsOf_length, hperm.length_eq]
      simp
    have hRne : recordsOf (srcBytes (entriesSrc entries)) []
        (plannedOrder (entries.map metaOf)) ≠ [] := by
      intro h0
      rw [h0] at hlen
      simp at hlen
      exact hne (List.eq_nil_of_length_eq_zero hlen.symm)
    simp only [extract_selected_files, clear_extracted_folder, hfilter]
    rw [if_neg (fun hemp => hRne (List.isEmpty_iff.mp hemp))]
    simp only [hEq]
  refine ⟨⟨MAGIC_NUMBER, some (recordsOf (srcBytes (entriesSrc entries)) []
    (plannedOrder (entries.map metaOf)))⟩, hbuild, ?_, ?_⟩
  · intro p hp
    have hne : entries ≠ [] := by
      intro h
      rw [h] at hp
      simp at hp
    rw [hres hne]
    have hmem : metaOf p ∈ plannedOrder (entries.map metaOf) :=
      hperm.mem_iff.mpr (List.mem_map_of_mem metaOf hp)
    have hval := hAll (metaOf p) hmem
    simpa [metaOf] using hval
  · intro hne
    rw [hres hne]

theorem roundtrip_c3_witness :
    ((entsAB.map Prod.fst).Nodup) ∧
    (∃ file, (build entsAB).2 = some file ∧
      (∀ p ∈ entsAB,
        lookupDir p.1
          (extract_selected_files [] file (entsAB.map Prod.fst)).2 =
          some p.2) ∧
      (entsAB ≠ [] →
        (extract_selected_files [] file (entsAB.map Prod.fst)).1.1 = true)) :=
  ⟨by decide, roundtrip_c3 entsAB (by decide)⟩

end UltraCompressor
